import Mathlib

/-!
Shallow embedding of the chunked-document extraction-and-merge pipeline of
`src/lib/reportProcessing.ts`, together with theorems settling the spec
claims about it.  A TypeScript string is modelled as a `List Char`; numbers
extracted from the report are modelled as `Int`; a fallible step is
modelled as `Except String`.
-/

namespace NCLS

/-- A TypeScript string, modelled as its list of characters. -/
abbrev Text := List Char

/-- Characters matched by the JavaScript regex class `\s` (the ASCII white
space characters plus the common Unicode space characters). -/
def jsSpace (c : Char) : Bool :=
  c = ' ' || c = '\t' || c = '\n' || c = '\r' || c.toNat = 0x0b || c.toNat = 0x0c ||
  c.toNat = 0xa0 || c.toNat = 0x1680 || (0x2000 ≤ c.toNat && c.toNat ≤ 0x200a) ||
  c.toNat = 0x2028 || c.toNat = 0x2029 || c.toNat = 0x202f || c.toNat = 0x205f ||
  c.toNat = 0x3000 || c.toNat = 0xfeff

/-- Index of the last newline character of a list, if any. -/
def lastNewline : List Char → Option Nat
  | [] => none
  | c :: rest =>
    match lastNewline rest with
    | some j => some (j + 1)
    | none => if c = '\n' then some 0 else none

/-- Length of the (greedy, leftmost) match of the regex `\n\s*\n` at the
head of `l`, if there is one: a newline, then as much white space as
possible, ending at the last newline inside that white-space run. -/
def sepMatchAt : List Char → Option Nat
  | [] => none
  | c :: rest =>
    if c = '\n' then
      match lastNewline (rest.takeWhile jsSpace) with
      | some j => some (j + 2)
      | none => none
    else none

/-- Scanner for `text.split(/\n\s*\n/)`: at each position, if the separator
regex matches, the accumulated paragraph is emitted and the match skipped,
otherwise the character is added to the current paragraph.  The `fuel`
argument only bounds the (linear) scan so that the recursion is structural;
it is called with `fuel = l.length`, which is always sufficient. -/
def splitParasAux : Nat → List Char → List Char → List (List Char)
  | 0, acc, _ => [acc.reverse]
  | fuel + 1, acc, l =>
    match sepMatchAt l with
    | some n => acc.reverse :: splitParasAux fuel [] (l.drop n)
    | none =>
      match l with
      | [] => [acc.reverse]
      | c :: rest => splitParasAux fuel (c :: acc) rest

/-- Translation of `text.split(/\n\s*\n/)` from `splitTextIntoChunks`. -/
def splitParas (text : Text) : List Text :=
  splitParasAux text.length [] text

/-- Translation of `currentChunk += (currentChunk ? '\n\n' : '') + paragraph`
(the source prepends the separator to the paragraph before appending). -/
def appendPar (cur p : Text) : Text :=
  cur ++ (if cur = [] then [] else ['\n', '\n']) ++ p

/-- The paragraph loop of `splitTextIntoChunks`: if adding the paragraph
would exceed the limit and the current chunk is non-empty, the current
chunk is pushed and the paragraph starts a new chunk; otherwise the
paragraph is appended to the current chunk.  At the end the last chunk is
pushed if it is non-empty. -/
def chunkLoop (maxChars : Int) : List Text → List Text → Text → List Text
  | [], chunks, cur => if cur = [] then chunks else chunks ++ [cur]
  | p :: ps, chunks, cur =>
    if (cur.length : Int) + p.length > maxChars ∧ 0 < cur.length then
      chunkLoop maxChars ps (chunks ++ [cur]) p
    else
      chunkLoop maxChars ps chunks (appendPar cur p)

/-- Translation of `splitTextIntoChunks` (src/lib/reportProcessing.ts,
lines 179-205). -/
def splitTextIntoChunks (text : Text) (maxTokens : Int) : List Text :=
  let charsPerToken : Int := 4
  let maxChars := maxTokens * charsPerToken
  let paragraphs := splitParas text
  chunkLoop maxChars paragraphs [] []

/-- Accumulation of a list of paragraphs into one chunk starting from the
current chunk `cur`, exactly as the source loop concatenates them. -/
def joinFrom (cur : Text) (ps : List Text) : Text := ps.foldl appendPar cur

/-- Accumulation of a list of paragraphs into one chunk from scratch. -/
def joinPars (ps : List Text) : Text := joinFrom [] ps

/-- Concatenation of a list of texts with a blank line (`"\n\n"`) between
consecutive parts; used to state the amended round-trip property. -/
def joinSep : List Text → Text
  | [] => []
  | [x] => x
  | x :: xs => x ++ ['\n', '\n'] ++ joinSep xs

theorem chunkLoop_append (mc : Int) (ps : List Text) (chunks : List Text) (cur : Text) :
    chunkLoop mc ps chunks cur = chunks ++ chunkLoop mc ps [] cur := by
  induction ps generalizing chunks cur with
  | nil =>
    simp only [chunkLoop]
    split <;> simp
  | cons p ps ih =>
    simp only [chunkLoop]
    split
    · rw [ih (chunks ++ [cur]) p, ih ([] ++ [cur]) p, List.append_assoc]
      simp
    · exact ih chunks (appendPar cur p)

theorem chunkLoop_groups (mc : Int) (ps : List Text) (cur : Text) :
    ∃ g gs, g ++ List.flatten gs = ps ∧
      chunkLoop mc ps [] cur =
        (if joinFrom cur g = [] then [] else [joinFrom cur g]) ++
          (gs.map joinPars).filter (· ≠ []) := by
  induction ps generalizing cur with
  | nil =>
    refine ⟨[], [], rfl, ?_⟩
    simp only [chunkLoop, joinFrom, List.foldl_nil, List.map_nil, List.filter_nil,
      List.append_nil]
    split <;> simp_all
  | cons p ps ih =>
    simp only [chunkLoop]
    split
    · rename_i hcond
      obtain ⟨g', gs', hjoin, heq⟩ := ih p
      refine ⟨[], (p :: g') :: gs', by simpa using hjoin, ?_⟩
      rw [chunkLoop_append mc ps ([] ++ [cur]) p, heq]
      have hcur : cur ≠ [] := by
        intro h
        subst h
        simp at hcond
      have hpp : joinPars (p :: g') = joinFrom p g' := rfl
      simp only [joinFrom, List.foldl_nil, if_neg hcur, List.map_cons, hpp]
      rw [List.filter_cons]
      by_cases hf : List.foldl appendPar p g' = []
      · simp [hf]
      · simp [hf]
    · obtain ⟨g', gs', hjoin, heq⟩ := ih (appendPar cur p)
      refine ⟨p :: g', gs', by simpa using hjoin, ?_⟩
      have : joinFrom cur (p :: g') = joinFrom (appendPar cur p) g' := rfl
      rw [this, heq]

theorem splitTextIntoChunks_groups (text : Text) (maxTokens : Int) :
    ∃ groups : List (List Text), groups.flatten = splitParas text ∧
      splitTextIntoChunks text maxTokens = (groups.map joinPars).filter (· ≠ []) := by
  obtain ⟨g, gs, hjoin, heq⟩ := chunkLoop_groups (maxTokens * 4) (splitParas text) []
  refine ⟨g :: gs, by simpa using hjoin, ?_⟩
  rw [splitTextIntoChunks]
  rw [heq, List.map_cons, List.filter_cons]
  have hpg : joinPars g = joinFrom [] g := rfl
  by_cases hf : joinFrom [] g = []
  · simp [hpg, hf]
  · simp [hpg, hf]

theorem chunkLoop_mem_self (mc : Int) (ps : List Text) (cur : Text)
    (h0 : 0 ≤ mc) (hbig : (cur.length : Int) > mc) :
    cur ∈ chunkLoop mc ps [] cur := by
  have hcur : cur ≠ [] := by
    intro h
    subst h
    simp at hbig
    omega
  cases ps with
  | nil =>
    simp only [chunkLoop, if_neg hcur]
    simp
  | cons p ps =>
    simp only [chunkLoop]
    rw [if_pos]
    · rw [chunkLoop_append mc ps ([] ++ [cur]) p]
      simp
    · constructor
      · have : (0 : Int) ≤ p.length := by positivity
        omega
      · have : 0 < cur.length := List.length_pos.mpr hcur
        omega

theorem chunkLoop_mem_oversized (mc : Int) (ps : List Text) (cur p : Text)
    (h0 : 0 ≤ mc) (hp : p ∈ ps) (hbig : (p.length : Int) > mc) :
    p ∈ chunkLoop mc ps [] cur := by
  induction ps generalizing cur with
  | nil => cases hp
  | cons q ps ih =>
    rcases List.mem_cons.mp hp with hq | hq
    · subst hq
      simp only [chunkLoop]
      split
      · rw [chunkLoop_append mc ps ([] ++ [cur]) p]
        have := chunkLoop_mem_self mc ps p h0 hbig
        exact List.mem_append_right _ this
      · rename_i hcond
        have hcur : cur = [] := by
          by_contra hne
          apply hcond
          constructor
          · have hc : (0 : Int) ≤ cur.length := by positivity
            omega
          · exact List.length_pos.mpr hne
        subst hcur
        have happ : appendPar [] p = p := by simp [appendPar]
        rw [happ]
        exact chunkLoop_mem_self mc ps p h0 hbig
    · simp only [chunkLoop]
      split
      · rw [chunkLoop_append mc ps ([] ++ [cur]) q]
        exact List.mem_append_right _ (ih q hq)
      · exact ih (appendPar cur q) hq

theorem chunkLoop_ne_nil (mc : Int) (ps : List Text) (chunks : List Text) (cur : Text)
    (h : chunks ≠ [] ∨ cur ≠ [] ∨ ∃ p ∈ ps, p ≠ []) :
    chunkLoop mc ps chunks cur ≠ [] := by
  induction ps generalizing chunks cur with
  | nil =>
    simp only [chunkLoop]
    rcases h with h | h | h
    · split <;> simp [h]
    · rw [if_neg h]
      simp
    · simp at h
  | cons p ps ih =>
    simp only [chunkLoop]
    split
    · apply ih
      left
      simp
    · apply ih
      rcases h with h | h | h
      · exact Or.inl h
      · refine Or.inr (Or.inl ?_)
        simp [appendPar, h]
      · obtain ⟨q, hq, hqne⟩ := h
        rcases List.mem_cons.mp hq with rfl | hq'
        · refine Or.inr (Or.inl ?_)
          simp [appendPar, hqne]
        · exact Or.inr (Or.inr ⟨q, hq', hqne⟩)

theorem chunkLoop_nil_of_all_empty (mc : Int) (ps : List Text)
    (h : ∀ p ∈ ps, p = []) :
    chunkLoop mc ps [] [] = [] := by
  induction ps with
  | nil => simp [chunkLoop]
  | cons p ps ih =>
    have hp : p = [] := h p (List.mem_cons_self p ps)
    subst hp
    simp only [chunkLoop]
    rw [if_neg]
    · have happ : appendPar [] [] = [] := by simp [appendPar]
      rw [happ]
      exact ih (fun q hq => h q (List.mem_cons_of_mem _ hq))
    · simp

theorem joinSep_cons_cons (x y : Text) (xs : List Text) :
    joinSep (x :: y :: xs) = x ++ ['\n', '\n'] ++ joinSep (y :: xs) := rfl

theorem joinSep_cons_eq (x : Text) (xs : List Text) :
    joinSep (x :: xs) = x ++ (xs.map (fun p => ['\n', '\n'] ++ p)).flatten := by
  induction xs generalizing x with
  | nil => simp [joinSep]
  | cons y xs ih =>
    rw [joinSep_cons_cons, ih y]
    simp

theorem joinFrom_eq (cur : Text) (ps : List Text) (h : cur ≠ []) :
    joinFrom cur ps = cur ++ (ps.map (fun p => ['\n', '\n'] ++ p)).flatten := by
  induction ps generalizing cur with
  | nil => simp [joinFrom]
  | cons p ps ih =>
    have hstep : joinFrom cur (p :: ps) = joinFrom (appendPar cur p) ps := rfl
    have happ : appendPar cur p = cur ++ ['\n', '\n'] ++ p := by
      simp [appendPar, if_neg h]
    have hne : appendPar cur p ≠ [] := by
      rw [happ]
      simp [h]
    rw [hstep, ih _ hne, happ]
    simp

theorem joinPars_eq_joinSep (g : List Text) (h : ∀ p ∈ g, p ≠ []) :
    joinPars g = joinSep g := by
  cases g with
  | nil => rfl
  | cons p ps =>
    have hp : p ≠ [] := h p (List.mem_cons_self p ps)
    have h1 : joinPars (p :: ps) = joinFrom p ps := by
      have : appendPar [] p = p := by simp [appendPar]
      simp only [joinPars, joinFrom, List.foldl_cons, this]
    rw [h1, joinFrom_eq p ps hp, joinSep_cons_eq]

theorem joinPars_ne_nil (g : List Text) (hg : g ≠ []) (h : ∀ p ∈ g, p ≠ []) :
    joinPars g ≠ [] := by
  cases g with
  | nil => exact absurd rfl hg
  | cons p ps =>
    have hp : p ≠ [] := h p (List.mem_cons_self p ps)
    have h1 : joinPars (p :: ps) = joinFrom p ps := by
      have : appendPar [] p = p := by simp [appendPar]
      simp only [joinPars, joinFrom, List.foldl_cons, this]
    rw [h1, joinFrom_eq p ps hp]
    simp [hp]

theorem joinSep_append (g rest : List Text) (hg : g ≠ []) (hrest : rest ≠ []) :
    joinSep (g ++ rest) = joinSep g ++ ['\n', '\n'] ++ joinSep rest := by
  induction g with
  | nil => exact absurd rfl hg
  | cons x g ih =>
    cases g with
    | nil =>
      cases rest with
      | nil => exact absurd rfl hrest
      | cons y ys => simp [joinSep_cons_cons, joinSep]
    | cons z g' =>
      have h1 : (x :: z :: g') ++ rest = x :: ((z :: g') ++ rest) := rfl
      rw [h1]
      have h2 : (z :: g') ++ rest = z :: (g' ++ rest) := rfl
      have hne : (z :: g') ++ rest ≠ [] := by simp
      have := ih (by simp)
      rw [joinSep_cons_cons x z g']
      cases hcase : (z :: g') ++ rest with
      | nil => simp at hcase
      | cons w ws =>
        rw [← hcase]
        have h3 : joinSep (x :: ((z :: g') ++ rest)) =
            x ++ ['\n', '\n'] ++ joinSep ((z :: g') ++ rest) := by
          rw [hcase]
          exact joinSep_cons_cons x w ws
        rw [h3, this]
        simp

theorem joinSep_flatten (groups : List (List Text)) (h : ∀ g ∈ groups, g ≠ []) :
    joinSep (groups.map joinSep) = joinSep groups.flatten := by
  induction groups with
  | nil => rfl
  | cons g groups ih =>
    cases groups with
    | nil => simp [joinSep]
    | cons g' gs =>
      have hg : g ≠ [] := h g (List.mem_cons_self _ _)
      have hg' : g' ≠ [] := h g' (by simp)
      have hrest : ∀ x ∈ g' :: gs, x ≠ [] := fun x hx => h x (List.mem_cons_of_mem _ hx)
      have hflat : (g' :: gs).flatten ≠ [] := by
        have : (g' :: gs).flatten = g' ++ gs.flatten := rfl
        rw [this]
        simp [hg']
      have hmap : (g :: g' :: gs).map joinSep = joinSep g :: joinSep g' :: gs.map joinSep := rfl
      rw [hmap, joinSep_cons_cons]
      have hmap2 : joinSep g' :: gs.map joinSep = (g' :: gs).map joinSep := rfl
      rw [hmap2, ih hrest]
      have hflat2 : (g :: g' :: gs).flatten = g ++ (g' :: gs).flatten := rfl
      rw [hflat2, joinSep_append g _ hg hflat]

theorem flatten_filter_nonempty {α : Type} [DecidableEq α] (l : List (List α)) :
    (l.filter (· ≠ [])).flatten = l.flatten := by
  induction l with
  | nil => rfl
  | cons x l ih =>
    rw [List.filter_cons]
    have ih2 : (List.filter (fun x => !decide (x = [])) l).flatten = l.flatten := by
      simpa using ih
    by_cases hx : x = []
    · rw [if_neg (by simp [hx])]
      simpa [hx] using ih2
    · rw [if_pos (by simp [hx])]
      simpa using ih2

theorem filter_map_joinPars (groups : List (List Text))
    (h : ∀ g ∈ groups, ∀ p ∈ g, p ≠ []) :
    (groups.map joinPars).filter (· ≠ []) = (groups.filter (· ≠ [])).map joinPars := by
  induction groups with
  | nil => rfl
  | cons g gs ih =>
    have hg := h g (List.mem_cons_self _ _)
    have htail : ∀ g' ∈ gs, ∀ p ∈ g', p ≠ [] :=
      fun g' hg' => h g' (List.mem_cons_of_mem _ hg')
    rw [List.map_cons, List.filter_cons, List.filter_cons]
    by_cases hgnil : g = []
    · have h0 : joinPars g = [] := by
        rw [hgnil]
        rfl
      rw [if_neg (by simp [h0]), if_neg (by simp [hgnil]), ih htail]
    · have h0 : joinPars g ≠ [] := joinPars_ne_nil g hgnil hg
      rw [if_pos (by simp [h0]), if_pos (by simp [hgnil]), List.map_cons, ih htail]

/-- C1 (counterexample): concatenating the chunker's output chunks in order
does not reproduce the input text: the blank-line separator consumed
between two paragraphs that end up in different chunks is dropped.  With a
budget of 1 token (4 characters) the text `"aaaa\n\nbbbb"` is chunked into
`["aaaa", "bbbb"]`, whose concatenation is `"aaaabbbb"`. -/
theorem chunk_concat_not_roundtrip :
    (splitTextIntoChunks ("aaaa\n\nbbbb".data) 1).flatten ≠ "aaaa\n\nbbbb".data := by
  decide

/-- C1 (amended): for a text in canonical paragraph form (its paragraphs
are non-empty and it equals its paragraphs joined by exactly one
`"\n\n"`), concatenating the chunker's output chunks in order with a
`"\n\n"` interposed between consecutive chunks reproduces the input text
exactly, for every positive token budget. -/
theorem chunk_roundtrip_canonical (text : Text) (maxTokens : Int)
    (_hpos : 0 < maxTokens)
    (hne : ∀ p ∈ splitParas text, p ≠ [])
    (hcanon : joinSep (splitParas text) = text) :
    joinSep (splitTextIntoChunks text maxTokens) = text := by
  obtain ⟨groups, hflat, hchunks⟩ := splitTextIntoChunks_groups text maxTokens
  have helem : ∀ g ∈ groups, ∀ p ∈ g, p ≠ [] := by
    intro g hg p hp
    apply hne
    rw [← hflat]
    exact List.mem_flatten.mpr ⟨g, hg, hp⟩
  rw [hchunks, filter_map_joinPars groups helem]
  have hmapeq : (groups.filter (· ≠ [])).map joinPars =
      (groups.filter (· ≠ [])).map joinSep := by
    apply List.map_congr_left
    intro g hg
    exact joinPars_eq_joinSep g (helem g (List.mem_of_mem_filter hg))
  have hfil : ∀ g ∈ groups.filter (· ≠ []), g ≠ [] := by
    intro g hg
    simpa using List.of_mem_filter hg
  rw [hmapeq, joinSep_flatten _ hfil, flatten_filter_nonempty, hflat, hcanon]

/-- Concrete instantiation of the amended round-trip theorem C1. -/
theorem chunk_roundtrip_canonical_witness :
    joinSep (splitTextIntoChunks ("aaaa\n\nbbbb".data) 1) = "aaaa\n\nbbbb".data :=
  chunk_roundtrip_canonical _ 1 (by decide) (by decide) (by decide)

/-- C8: no chunk boundary falls inside a paragraph: the chunk list is
obtained by grouping consecutive paragraphs of the text (each chunk is the
loop's concatenation of one group of whole paragraphs, empty accumulations
being dropped), and a single paragraph exceeding the character budget
(4 characters per token) is itself exactly one of the chunks. -/
theorem chunk_paragraph_preservation (text : Text) (maxTokens : Int)
    (hpos : 0 < maxTokens) :
    (∃ groups : List (List Text), groups.flatten = splitParas text ∧
        splitTextIntoChunks text maxTokens = (groups.map joinPars).filter (· ≠ [])) ∧
    ∀ p ∈ splitParas text, (p.length : Int) > maxTokens * 4 →
      p ∈ splitTextIntoChunks text maxTokens := by
  constructor
  · exact splitTextIntoChunks_groups text maxTokens
  · intro p hp hbig
    have h0 : (0 : Int) ≤ maxTokens * 4 := by omega
    simp only [splitTextIntoChunks]
    exact chunkLoop_mem_oversized (maxTokens * 4) (splitParas text) [] p h0 hp hbig

/-- Concrete instantiation of the paragraph-preservation theorem C8: a
ten-character paragraph with a one-token budget becomes one chunk. -/
theorem chunk_paragraph_preservation_witness :
    "aaaaaaaaaa".data ∈ splitTextIntoChunks ("aaaaaaaaaa".data) 1 :=
  (chunk_paragraph_preservation _ 1 (by decide)).2 _ (by decide) (by decide)

/-- C9 (counterexample): the chunker does not reject a non-positive budget
(at budget 0 it returns a value rather than failing), and for a positive
budget the output can be empty (on the empty text). -/
theorem chunker_no_rejection_counterexample :
    splitTextIntoChunks ("a".data) 0 = ["a".data] ∧
    splitTextIntoChunks ([] : Text) 1 = [] := by
  exact ⟨by decide, by decide⟩

/-- C9 (amended): the chunker is a pure total function with no failure
mode at all: every budget (positive or not) is accepted, and the produced
chunk sequence is non-empty exactly when the text has some non-empty
paragraph. -/
theorem chunker_total_nonempty_iff (text : Text) (maxTokens : Int) :
    splitTextIntoChunks text maxTokens ≠ [] ↔ ∃ p ∈ splitParas text, p ≠ [] := by
  constructor
  · intro hne
    by_contra hall
    push_neg at hall
    apply hne
    simp only [splitTextIntoChunks]
    exact chunkLoop_nil_of_all_empty _ _ hall
  · intro hex
    simp only [splitTextIntoChunks]
    exact chunkLoop_ne_nil _ _ [] [] (Or.inr (Or.inr hex))

/-! Data model of the target schema (the `ReportData` interface) and of the
per-chunk extraction results (`Partial<ReportData>`): every section may be
absent.  JavaScript numbers here hold extracted counts and sums; they are
modelled as `Int`. -/

/-- The `libraryOverview` scalar group. -/
structure LibraryOverview where
  populationServed : Int
  annualVisits : Int
  registeredBorrowers : Int
  openHoursPerWeek : Int
deriving DecidableEq

/-- The `collectionOverview` scalar group. -/
structure CollectionOverview where
  totalItems : Int
  printMaterials : Int
  physicalAudioVideo : Int
  otherPhysicalItems : Int
deriving DecidableEq

/-- The `usageStatistics` scalar group. -/
structure UsageStatistics where
  physicalItemCirculation : Int
  eBookCirculation : Int
  eAudioCirculation : Int
  referenceTransactions : Int
deriving DecidableEq

/-- One category-breakdown entry: a JavaScript object with a string `name`
and numeric fields (`value`, or `sessions`/`attendance`, or
`registered`/`sessions`/`attendance`), modelled as an association list of
the numeric fields in key order. -/
structure CatEntry where
  name : String
  fields : List (String × Int)
deriving DecidableEq

/-- The `keyFindings` section. -/
structure KeyFindings where
  strengths : List String
  areasForDevelopment : List String
deriving DecidableEq

/-- A per-chunk extraction result (`Partial<ReportData>`): each section is
optional. -/
@[ext]
structure PartialRecord where
  libraryOverview : Option LibraryOverview := none
  collectionOverview : Option CollectionOverview := none
  usageStatistics : Option UsageStatistics := none
  collectionData : Option (List CatEntry) := none
  circulationData : Option (List CatEntry) := none
  revenueData : Option (List CatEntry) := none
  expenseData : Option (List CatEntry) := none
  programData : Option (List CatEntry) := none
  venueData : Option (List CatEntry) := none
  summerReadingData : Option (List CatEntry) := none
  keyFindings : Option KeyFindings := none
deriving DecidableEq

/-- The record with every section absent. -/
def emptyRecord : PartialRecord := {}

/-- Reading a numeric field of an entry object: `existingItem[key] || 0`
(a missing key reads as 0). -/
def getNum : List (String × Int) → String → Int
  | [], _ => 0
  | (k, v) :: rest, key => if k = key then v else getNum rest key

/-- Writing a numeric field of an entry object: `existingItem[key] = v`
overwrites the key in place if present and appends it otherwise. -/
def setNum : List (String × Int) → String → Int → List (String × Int)
  | [], key, v => [(key, v)]
  | (k, w) :: rest, key, v =>
    if k = key then (k, v) :: rest else (k, w) :: setNum rest key v

/-- Translation of the inner update of `mergeResults`: for every key of the
incoming item that is numeric and is not `name`,
`existingItem[key] = (existingItem[key] || 0) + item[key]`.  In this model
every field of `fields` is numeric. -/
def mergeNumeric (existing item : CatEntry) : CatEntry :=
  { existing with
    fields := item.fields.foldl
      (fun fs kv =>
        if kv.1 ≠ "name" then setNum fs kv.1 (getNum fs kv.1 + kv.2) else fs)
      existing.fields }

/-- Translation of the body of the item loop of `mergeResults`: the source
keeps `nameMap : Map<string, number>` holding the index in `items` of the
(unique) entry with a given name, which is exactly the first index with
that name, recomputed here with `findIdx?`; `items.push({...item})` pushes
a copy of the item. -/
def insertItem (items : List CatEntry) (item : CatEntry) : List CatEntry :=
  match items.findIdx? (fun e => e.name = item.name) with
  | some idx => items.set idx (mergeNumeric (items.getD idx item) item)
  | none => items ++ [item]

/-- The per-section merge loop of `mergeResults` over all chunk results
(`for result of results: for item of result[prop]: ...`). -/
def mergeSection (results : List PartialRecord)
    (get : PartialRecord → Option (List CatEntry)) : List CatEntry :=
  results.foldl
    (fun items r =>
      match get r with
      | none => items
      | some arr => arr.foldl insertItem items)
    []

/-- The guarded assignment `if (items.length > 0) merged[prop] = items`. -/
def mergeSectionOpt (results : List PartialRecord)
    (get : PartialRecord → Option (List CatEntry)) : Option (List CatEntry) :=
  let items := mergeSection results get
  if items = [] then none else some items

/-- One iteration of the scalar loop of `mergeResults`:
`if (result.x && !merged.x) merged.x = result.x` for the three scalar
sections. -/
def scalarStep (merged result : PartialRecord) : PartialRecord :=
  { merged with
    libraryOverview :=
      if result.libraryOverview.isSome && merged.libraryOverview.isNone then
        result.libraryOverview
      else merged.libraryOverview,
    collectionOverview :=
      if result.collectionOverview.isSome && merged.collectionOverview.isNone then
        result.collectionOverview
      else merged.collectionOverview,
    usageStatistics :=
      if result.usageStatistics.isSome && merged.usageStatistics.isNone then
        result.usageStatistics
      else merged.usageStatistics }

/-- Insertion into a JavaScript `Set` (insertion order is kept, a present
element is not re-added). -/
def jsSetAdd (s : List String) (x : String) : List String :=
  if x ∈ s then s else s ++ [x]

/-- The strengths / areas-for-development accumulation of `mergeResults`
over all chunk results. -/
def collectFindings (results : List PartialRecord)
    (get : KeyFindings → List String) : List String :=
  results.foldl
    (fun s r =>
      match r.keyFindings with
      | some kf => (get kf).foldl jsSetAdd s
      | none => s)
    []

/-- Translation of `mergeResults` (src/lib/reportProcessing.ts, lines
212-292): one scalar pass (first non-absent section wins), one name-keyed
aggregation pass per category section, and a capped set union for the
findings, which are only attached when some chunk contributed them. -/
def mergeResults (results : List PartialRecord) : PartialRecord :=
  let merged1 := results.foldl scalarStep {}
  let kf :=
    if results.any (fun r => r.keyFindings.isSome) then
      some
        { strengths := (collectFindings results (fun kf => kf.strengths)).take 5,
          areasForDevelopment :=
            (collectFindings results (fun kf => kf.areasForDevelopment)).take 5 }
    else none
  { merged1 with
    collectionData := mergeSectionOpt results (fun r => r.collectionData),
    circulationData := mergeSectionOpt results (fun r => r.circulationData),
    revenueData := mergeSectionOpt results (fun r => r.revenueData),
    expenseData := mergeSectionOpt results (fun r => r.expenseData),
    programData := mergeSectionOpt results (fun r => r.programData),
    venueData := mergeSectionOpt results (fun r => r.venueData),
    summerReadingData := mergeSectionOpt results (fun r => r.summerReadingData),
    keyFindings := kf }

/-- Modelled on the spec words for scalar-group sections: the first
non-absent value in sequence order, if any. -/
def firstPresent {α : Type} (get : PartialRecord → Option α) :
    List PartialRecord → Option α
  | [] => none
  | r :: rs =>
    match get r with
    | some v => some v
    | none => firstPresent get rs

/-- The scalar fold of one field, extracted from `scalarStep`. -/
def scalarFold {α : Type} (get : PartialRecord → Option α)
    (results : List PartialRecord) (init : Option α) : Option α :=
  results.foldl (fun m r => if (get r).isSome && m.isNone then get r else m) init

theorem foldl_scalarStep_lib (results : List PartialRecord) (m : PartialRecord) :
    (results.foldl scalarStep m).libraryOverview =
      scalarFold (fun r => r.libraryOverview) results m.libraryOverview := by
  induction results generalizing m with
  | nil => rfl
  | cons r rs ih =>
    simp only [List.foldl_cons, ih]
    rfl

theorem foldl_scalarStep_coll (results : List PartialRecord) (m : PartialRecord) :
    (results.foldl scalarStep m).collectionOverview =
      scalarFold (fun r => r.collectionOverview) results m.collectionOverview := by
  induction results generalizing m with
  | nil => rfl
  | cons r rs ih =>
    simp only [List.foldl_cons, ih]
    rfl

theorem foldl_scalarStep_usage (results : List PartialRecord) (m : PartialRecord) :
    (results.foldl scalarStep m).usageStatistics =
      scalarFold (fun r => r.usageStatistics) results m.usageStatistics := by
  induction results generalizing m with
  | nil => rfl
  | cons r rs ih =>
    simp only [List.foldl_cons, ih]
    rfl

theorem scalarFold_some {α : Type} (get : PartialRecord → Option α)
    (results : List PartialRecord) (v : α) :
    scalarFold get results (some v) = some v := by
  induction results with
  | nil => rfl
  | cons r rs ih =>
    simp only [scalarFold, List.foldl_cons, Option.isNone_some, Bool.and_false,
      if_neg Bool.false_ne_true]
    exact ih

theorem scalarFold_none {α : Type} (get : PartialRecord → Option α)
    (results : List PartialRecord) :
    scalarFold get results none = firstPresent get results := by
  induction results with
  | nil => rfl
  | cons r rs ih =>
    simp only [scalarFold, List.foldl_cons, firstPresent]
    cases hr : get r with
    | none =>
      simp only [hr, Option.isSome_none, Bool.false_and, if_neg Bool.false_ne_true]
      exact ih
    | some v =>
      simp only [hr, Option.isSome_some, Option.isNone_none, Bool.and_self,
        if_pos rfl]
      exact scalarFold_some get rs v

/-- C2: each scalar-group section of the merged record (libraryOverview,
collectionOverview, usageStatistics) equals the first non-absent value of
that section in chunk order; once populated, later chunks' versions of the
section are ignored wholesale, with no field-level merging. -/
theorem mergeResults_scalar_first_wins (results : List PartialRecord) :
    (mergeResults results).libraryOverview =
        firstPresent (fun r => r.libraryOverview) results ∧
    (mergeResults results).collectionOverview =
        firstPresent (fun r => r.collectionOverview) results ∧
    (mergeResults results).usageStatistics =
        firstPresent (fun r => r.usageStatistics) results := by
  refine ⟨?_, ?_, ?_⟩
  · have h : (mergeResults results).libraryOverview =
        (results.foldl scalarStep {}).libraryOverview := rfl
    rw [h, foldl_scalarStep_lib]
    exact scalarFold_none _ results
  · have h : (mergeResults results).collectionOverview =
        (results.foldl scalarStep {}).collectionOverview := rfl
    rw [h, foldl_scalarStep_coll]
    exact scalarFold_none _ results
  · have h : (mergeResults results).usageStatistics =
        (results.foldl scalarStep {}).usageStatistics := rfl
    rw [h, foldl_scalarStep_usage]
    exact scalarFold_none _ results

/-- Recursive characterisation of `insertItem`: update the first entry
carrying the same name, appending when there is none. -/
def updateFirst : List CatEntry → CatEntry → List CatEntry
  | [], item => [item]
  | e :: items, item =>
    if e.name = item.name then mergeNumeric e item :: items
    else e :: updateFirst items item

theorem mergeNumeric_name (a b : CatEntry) : (mergeNumeric a b).name = a.name := rfl

theorem insertItem_eq_updateFirst (items : List CatEntry) (item : CatEntry) :
    insertItem items item = updateFirst items item := by
  induction items with
  | nil => rfl
  | cons e items ih =>
    simp only [insertItem, updateFirst, List.findIdx?_cons]
    by_cases he : e.name = item.name
    · rw [if_pos (by simp [he])]
      simp [he]
    · rw [if_neg (by simp [he]), if_neg he, List.findIdx?_succ, ← ih]
      cases h : items.findIdx? (fun x => decide (x.name = item.name)) with
      | none =>
        simp only [Option.map_none']
        simp [insertItem, h]
      | some j =>
        simp only [Option.map_some']
        simp [insertItem, h, List.set_cons_succ, List.getD_cons_succ]

theorem jsSetAdd_cons (x v : String) (s : List String) (h : v ≠ x) :
    jsSetAdd (x :: s) v = x :: jsSetAdd s v := by
  simp only [jsSetAdd, List.mem_cons]
  by_cases hv : v ∈ s
  · rw [if_pos (Or.inr hv), if_pos hv]
  · rw [if_neg (by tauto), if_neg hv]
    rfl

theorem jsSetAdd_nodup (s : List String) (v : String) (h : s.Nodup) :
    (jsSetAdd s v).Nodup := by
  simp only [jsSetAdd]
  by_cases hv : v ∈ s
  · rwa [if_pos hv]
  · rw [if_neg hv]
    simp [List.nodup_append, h, hv]

theorem updateFirst_map_name (items : List CatEntry) (item : CatEntry) :
    (updateFirst items item).map (fun e => e.name) =
      jsSetAdd (items.map (fun e => e.name)) item.name := by
  induction items with
  | nil => simp [updateFirst, jsSetAdd]
  | cons e items ih =>
    by_cases he : e.name = item.name
    · rw [updateFirst, if_pos he]
      simp only [List.map_cons, mergeNumeric_name]
      rw [jsSetAdd, if_pos]
      simp [he]
    · rw [updateFirst, if_neg he]
      simp only [List.map_cons, ih]
      rw [jsSetAdd_cons _ _ _ (fun hx => he hx.symm)]

/-- The name fold corresponding to the item loop. -/
def nameFold (stream : List CatEntry) (ns : List String) : List String :=
  stream.foldl (fun ns e => jsSetAdd ns e.name) ns

theorem foldl_insertItem_map_name (stream : List CatEntry) (items : List CatEntry) :
    ((stream.foldl insertItem items).map (fun e => e.name)) =
      nameFold stream (items.map (fun e => e.name)) := by
  induction stream generalizing items with
  | nil => rfl
  | cons s stream ih =>
    simp only [List.foldl_cons, nameFold] at ih ⊢
    rw [ih (insertItem items s), insertItem_eq_updateFirst, updateFirst_map_name]

theorem nameFold_nodup (stream : List CatEntry) (ns : List String) (h : ns.Nodup) :
    (nameFold stream ns).Nodup := by
  induction stream generalizing ns with
  | nil => exact h
  | cons s stream ih =>
    simp only [nameFold, List.foldl_cons] at ih ⊢
    exact ih _ (jsSetAdd_nodup ns s.name h)

theorem mergeSection_eq_stream (results : List PartialRecord)
    (get : PartialRecord → Option (List CatEntry)) :
    mergeSection results get = ((results.filterMap get).flatten).foldl insertItem [] := by
  suffices h : ∀ (rs : List PartialRecord) (init : List CatEntry),
      rs.foldl
        (fun items r =>
          match get r with
          | none => items
          | some arr => arr.foldl insertItem items)
        init = ((rs.filterMap get).flatten).foldl insertItem init by
    exact h results []
  intro rs
  induction rs with
  | nil => intro init; rfl
  | cons r rs ih =>
    intro init
    simp only [List.foldl_cons]
    cases hr : get r with
    | none => simp [List.filterMap_cons, hr, ih]
    | some arr =>
      simp only [List.filterMap_cons, hr, List.flatten_cons, List.foldl_append]
      exact ih _

/-- The seven category-breakdown sections of a record. -/
def catSections : List (PartialRecord → Option (List CatEntry)) :=
  [fun r => r.collectionData, fun r => r.circulationData, fun r => r.revenueData,
   fun r => r.expenseData, fun r => r.programData, fun r => r.venueData,
   fun r => r.summerReadingData]

theorem get_mergeResults_eq (get : PartialRecord → Option (List CatEntry))
    (hget : get ∈ catSections) (results : List PartialRecord) :
    get (mergeResults results) = mergeSectionOpt results get := by
  fin_cases hget <;> rfl

/-- C5: after merging, every category-breakdown section carries pairwise
distinct entry names. -/
theorem mergeResults_category_names_nodup (results : List PartialRecord)
    (get : PartialRecord → Option (List CatEntry)) (hget : get ∈ catSections) :
    (((get (mergeResults results)).getD []).map (fun e => e.name)).Nodup := by
  rw [get_mergeResults_eq get hget results]
  simp only [mergeSectionOpt]
  by_cases hnil : mergeSection results get = []
  · simp [hnil]
  · rw [if_neg hnil]
    simp only [Option.getD_some]
    rw [mergeSection_eq_stream, foldl_insertItem_map_name]
    exact nameFold_nodup _ [] List.nodup_nil

/-- Concrete instantiation of the uniqueness theorem C5. -/
theorem mergeResults_category_names_nodup_witness :
    ((((fun (r : PartialRecord) => r.collectionData)
          (mergeResults
            [{ collectionData := some [⟨"Adult Fiction", [("value", 10)]⟩] },
             { collectionData := some [⟨"Adult Fiction", [("value", 5)]⟩] }])).getD
        []).map (fun e => e.name)).Nodup :=
  mergeResults_category_names_nodup _ _ (List.Mem.head _)

theorem getNum_cons (k1 : String) (w : Int) (fs : List (String × Int)) (k : String) :
    getNum ((k1, w) :: fs) k = if k1 = k then w else getNum fs k := rfl

theorem getNum_setNum_self (fs : List (String × Int)) (key : String) (v : Int) :
    getNum (setNum fs key v) key = v := by
  induction fs with
  | nil => simp [setNum, getNum]
  | cons kv fs ih =>
    obtain ⟨k1, w⟩ := kv
    by_cases hk : k1 = key
    · simp [setNum, hk, getNum]
    · simp [setNum, hk, getNum, ih]

theorem getNum_setNum_other (fs : List (String × Int)) (key k : String) (v : Int)
    (h : k ≠ key) : getNum (setNum fs key v) k = getNum fs k := by
  induction fs with
  | nil =>
    simp only [setNum, getNum_cons]
    rw [if_neg (fun hh => h hh.symm)]
  | cons kv fs ih =>
    obtain ⟨k1, w⟩ := kv
    simp only [setNum]
    by_cases hk : k1 = key
    · rw [if_pos hk, getNum_cons, getNum_cons]
      have hkk : ¬k1 = k := fun hh => h (hh ▸ hk)
      rw [if_neg hkk, if_neg hkk]
    · rw [if_neg hk, getNum_cons, getNum_cons]
      by_cases hkk : k1 = k
      · rw [if_pos hkk, if_pos hkk]
      · rw [if_neg hkk, if_neg hkk, ih]

theorem getNum_eq_zero_of_not_mem (fs : List (String × Int)) (key : String)
    (h : key ∉ fs.map Prod.fst) : getNum fs key = 0 := by
  induction fs with
  | nil => rfl
  | cons kv fs ih =>
    obtain ⟨k1, w⟩ := kv
    simp only [List.map_cons, List.mem_cons] at h
    push_neg at h
    rw [getNum_cons, if_neg (fun hh => h.1 hh.symm), ih h.2]

theorem getNum_mergeNumeric (a b : CatEntry) (k : String) (hk : k ≠ "name")
    (hb : (b.fields.map Prod.fst).Nodup) :
    getNum (mergeNumeric a b).fields k = getNum a.fields k + getNum b.fields k := by
  suffices h : ∀ (kvs : List (String × Int)) (fs : List (String × Int)),
      (kvs.map Prod.fst).Nodup →
      getNum
          (kvs.foldl
            (fun fs kv =>
              if kv.1 ≠ "name" then setNum fs kv.1 (getNum fs kv.1 + kv.2) else fs)
            fs) k =
        getNum fs k + getNum kvs k by
    exact h b.fields a.fields hb
  intro kvs
  induction kvs with
  | nil =>
    intro fs _
    simp [getNum]
  | cons kv kvs ih =>
    intro fs hnd
    obtain ⟨k1, v1⟩ := kv
    simp only [List.map_cons, List.nodup_cons] at hnd
    obtain ⟨hk1mem, hnd1⟩ := hnd
    simp only [List.foldl_cons]
    by_cases hname : k1 = "name"
    · rw [show (if ((k1, v1).1 ≠ "name") then
            setNum fs (k1, v1).1 (getNum fs (k1, v1).1 + (k1, v1).2) else fs) = fs by
          simp [hname]]
      rw [ih fs hnd1, getNum_cons, if_neg (by rw [hname]; exact Ne.symm hk)]
    · rw [show (if ((k1, v1).1 ≠ "name") then
            setNum fs (k1, v1).1 (getNum fs (k1, v1).1 + (k1, v1).2) else fs) =
            setNum fs k1 (getNum fs k1 + v1) by simp [hname]]
      rw [ih _ hnd1]
      by_cases hkk : k1 = k
      · subst hkk
        rw [getNum_setNum_self, getNum_eq_zero_of_not_mem kvs k1 hk1mem,
          getNum_cons, if_pos rfl]
        ring
      · rw [getNum_setNum_other _ _ _ _ (fun hh => hkk hh.symm), getNum_cons,
          if_neg hkk]

/-- Lookup of the (first) entry with a given name in a section. -/
def findByName (items : List CatEntry) (n : String) : Option CatEntry :=
  items.find? (fun e => e.name = n)

/-- Numeric field of an optional entry, an absent entry reading as 0. -/
def entryVal (o : Option CatEntry) (k : String) : Int :=
  match o with
  | some e => getNum e.fields k
  | none => 0

/-- Modelled on the spec words for category sections: the element-wise
total of one numeric field over the entries of the chunk stream that carry
a given name. -/
def sumContrib (stream : List CatEntry) (n k : String) : Int :=
  ((stream.filter (fun s => s.name = n)).map (fun s => getNum s.fields k)).sum

/-- Modelled on the spec words for set union: first-occurrence
deduplication, preserving order of first appearance. -/
def dedupFirst (l : List String) : List String := l.foldl jsSetAdd []

theorem findByName_updateFirst_same (items : List CatEntry) (s : CatEntry) :
    findByName (updateFirst items s) s.name =
      some
        (match findByName items s.name with
         | some x => mergeNumeric x s
         | none => s) := by
  induction items with
  | nil =>
    rw [updateFirst, findByName, List.find?_cons_of_pos _ (by simp)]
    rfl
  | cons e items ih =>
    by_cases he : e.name = s.name
    · rw [updateFirst, if_pos he, findByName,
        List.find?_cons_of_pos _ (by simp [mergeNumeric_name, he])]
      rw [show findByName (e :: items) s.name = some e from by
        rw [findByName]
        exact List.find?_cons_of_pos _ (by simp [he])]
    · rw [updateFirst, if_neg he, findByName,
        List.find?_cons_of_neg _ (by simp [he])]
      rw [show findByName (e :: items) s.name = findByName items s.name from by
        rw [findByName, findByName]
        exact List.find?_cons_of_neg _ (by simp [he])]
      exact ih

theorem findByName_updateFirst_other (items : List CatEntry) (s : CatEntry) (n : String)
    (h : ¬s.name = n) : findByName (updateFirst items s) n = findByName items n := by
  induction items with
  | nil =>
    rw [updateFirst, findByName, List.find?_cons_of_neg _ (by simp [h])]
    rfl
  | cons e items ih =>
    by_cases he : e.name = s.name
    · rw [updateFirst, if_pos he]
      have hen : ¬e.name = n := by
        rw [he]
        exact h
      rw [findByName, List.find?_cons_of_neg _ (by simp [mergeNumeric_name, hen]),
        findByName, List.find?_cons_of_neg _ (by simp [hen])]
    · rw [updateFirst, if_neg he]
      by_cases hen : e.name = n
      · rw [findByName, List.find?_cons_of_pos _ (by simp [hen]),
          findByName, List.find?_cons_of_pos _ (by simp [hen])]
      · rw [findByName, List.find?_cons_of_neg _ (by simp [hen]),
          findByName, List.find?_cons_of_neg _ (by simp [hen])]
        exact ih

theorem foldl_insertItem_entryVal (k : String) (hk : k ≠ "name")
    (stream : List CatEntry) :
    ∀ (items : List CatEntry) (n : String),
      (∀ s ∈ stream, (s.fields.map Prod.fst).Nodup) →
      entryVal (findByName (stream.foldl insertItem items) n) k =
        entryVal (findByName items n) k + sumContrib stream n k := by
  induction stream with
  | nil =>
    intro items n _
    simp [sumContrib]
  | cons s stream ih =>
    intro items n hwf
    have hws : (s.fields.map Prod.fst).Nodup := hwf s (List.mem_cons_self _ _)
    have hwt : ∀ x ∈ stream, (x.fields.map Prod.fst).Nodup :=
      fun x hx => hwf x (List.mem_cons_of_mem _ hx)
    simp only [List.foldl_cons]
    rw [insertItem_eq_updateFirst, ih _ n hwt]
    by_cases hn : s.name = n
    · subst hn
      rw [findByName_updateFirst_same]
      have hsum : sumContrib (s :: stream) s.name k =
          getNum s.fields k + sumContrib stream s.name k := by
        simp [sumContrib, List.filter_cons]
      rw [hsum]
      cases hfind : findByName items s.name with
      | none =>
        simp only [entryVal]
        ring
      | some x =>
        simp only [entryVal]
        rw [getNum_mergeNumeric x s k hk hws]
        ring
    · rw [findByName_updateFirst_other _ _ _ hn]
      have hsum : sumContrib (s :: stream) n k = sumContrib stream n k := by
        simp [sumContrib, List.filter_cons, hn]
      rw [hsum]

theorem findByName_eq_self (items : List CatEntry) (e : CatEntry)
    (hnd : (items.map (fun x => x.name)).Nodup) (he : e ∈ items) :
    findByName items e.name = some e := by
  induction items with
  | nil => cases he
  | cons x items ih =>
    simp only [List.map_cons, List.nodup_cons] at hnd
    rcases List.mem_cons.mp he with rfl | hmem
    · rw [findByName]
      exact List.find?_cons_of_pos _ (by simp)
    · have hx : ¬x.name = e.name := by
        intro hh
        exact hnd.1 (hh ▸ List.mem_map_of_mem (fun y => y.name) hmem)
      rw [findByName, List.find?_cons_of_neg _ (by simp [hx])]
      exact ih hnd.2 hmem

theorem nameFold_eq_dedupFirst (stream : List CatEntry) :
    nameFold stream [] = dedupFirst (stream.map (fun e => e.name)) := by
  suffices h : ∀ (st : List CatEntry) (ns : List String),
      nameFold st ns = (st.map (fun e => e.name)).foldl jsSetAdd ns by
    exact h stream []
  intro st
  induction st with
  | nil => intro ns; rfl
  | cons s st ih =>
    intro ns
    simp only [nameFold, List.foldl_cons, List.map_cons] at ih ⊢
    exact ih _

/-- The list of findings strings a chunk result contributes to one of the
two findings lists (none when the chunk has no findings section). -/
def findingsOf (get : KeyFindings → List String) (r : PartialRecord) : List String :=
  match r.keyFindings with
  | some kf => get kf
  | none => []

/-- Modelled on the spec words for the findings section: union of the
strings across all chunks as a set (first appearance order), truncated to
the first 5, independently per list; the section is omitted when no chunk
contributed it. -/
def specFindings (results : List PartialRecord) : Option KeyFindings :=
  if results.all (fun r => r.keyFindings = none) then none
  else
    some
      { strengths :=
          (dedupFirst ((results.map (findingsOf (fun kf => kf.strengths))).flatten)).take 5,
        areasForDevelopment :=
          (dedupFirst
            ((results.map (findingsOf (fun kf => kf.areasForDevelopment))).flatten)).take 5 }

theorem collectFindings_eq (results : List PartialRecord)
    (get : KeyFindings → List String) :
    collectFindings results get = dedupFirst ((results.map (findingsOf get)).flatten) := by
  suffices h : ∀ (rs : List PartialRecord) (init : List String),
      rs.foldl
        (fun s r =>
          match r.keyFindings with
          | some kf => (get kf).foldl jsSetAdd s
          | none => s)
        init = ((rs.map (findingsOf get)).flatten).foldl jsSetAdd init by
    exact h results []
  intro rs
  induction rs with
  | nil => intro init; rfl
  | cons r rs ih =>
    intro init
    simp only [List.foldl_cons, List.map_cons, List.flatten_cons, List.foldl_append]
    cases hr : r.keyFindings with
    | none => simp [findingsOf, hr, ih]
    | some kf => simp [findingsOf, hr, ih]

theorem any_isSome_eq_not_all_none (results : List PartialRecord) :
    results.any (fun r => r.keyFindings.isSome) =
      !results.all (fun r => r.keyFindings = none) := by
  induction results with
  | nil => rfl
  | cons r rs ih =>
    simp only [List.any_cons, List.all_cons, ih, Bool.not_and]
    cases hr : r.keyFindings <;> simp

/-- C4: the findings section of the merged record is the specification
union: the set union of strength strings across all chunks in first
appearance order truncated to the first 5, independently for areas for
development, and the section is omitted exactly when no chunk contributed
one; in particular two chunks contributing 7 distinct strengths merge to
exactly 5 strengths. -/
theorem mergeResults_findings_spec (results : List PartialRecord) :
    (mergeResults results).keyFindings = specFindings results ∧
    ((mergeResults
        [{ keyFindings := some ⟨["s1", "s2", "s3", "s4"], []⟩ },
         { keyFindings := some ⟨["s5", "s6", "s7"], ["a1"]⟩ }]).keyFindings.map
      (fun kf => kf.strengths.length)) = some 5 := by
  constructor
  · have hproj : (mergeResults results).keyFindings =
        (if results.any (fun r => r.keyFindings.isSome) then
          some
            { strengths := (collectFindings results (fun kf => kf.strengths)).take 5,
              areasForDevelopment :=
                (collectFindings results (fun kf => kf.areasForDevelopment)).take 5 }
        else none) := rfl
    rw [hproj, specFindings, any_isSome_eq_not_all_none,
      collectFindings_eq, collectFindings_eq]
    by_cases hall : results.all (fun r => r.keyFindings = none) = true
    · rw [hall, if_pos rfl]
      simp
    · rw [Bool.not_eq_true] at hall
      rw [hall]
      simp
  · decide

/-- C3: within each category-breakdown section the merger processes the
entries of all chunks in order (the section equals the fold of the
name-keyed insertion over the concatenated entry stream); the output names
are the first-occurrence deduplication of the stream's names, new entries
being appended in first-seen order; and, for well-formed entries (no
duplicate field keys), every numeric non-`name` field of an output entry
is the element-wise sum of that field over the stream entries carrying the
same name, an absent field counting as 0.  In particular merging two
records with entries named "Adult Fiction" valued 10 and 5 yields the
single entry "Adult Fiction" valued 15. -/
theorem mergeResults_category_aggregation
    (get : PartialRecord → Option (List CatEntry)) (hget : get ∈ catSections)
    (results : List PartialRecord) :
    ((get (mergeResults results)).getD [] =
        ((results.filterMap get).flatten).foldl insertItem []) ∧
    (((get (mergeResults results)).getD []).map (fun e => e.name) =
        dedupFirst (((results.filterMap get).flatten).map (fun e => e.name))) ∧
    ((∀ s ∈ (results.filterMap get).flatten, (s.fields.map Prod.fst).Nodup) →
      ∀ e ∈ (get (mergeResults results)).getD [], ∀ k, k ≠ "name" →
        getNum e.fields k = sumContrib ((results.filterMap get).flatten) e.name k) ∧
    (mergeResults
        [{ collectionData := some [⟨"Adult Fiction", [("value", 10)]⟩] },
         { collectionData := some [⟨"Adult Fiction", [("value", 5)]⟩] }]).collectionData =
      some [⟨"Adult Fiction", [("value", 15)]⟩] := by
  have hbase : (get (mergeResults results)).getD [] =
      ((results.filterMap get).flatten).foldl insertItem [] := by
    rw [get_mergeResults_eq get hget results]
    simp only [mergeSectionOpt]
    by_cases hnil : mergeSection results get = []
    · rw [if_pos hnil, ← mergeSection_eq_stream, hnil]
      rfl
    · rw [if_neg hnil]
      simp only [Option.getD_some]
      exact mergeSection_eq_stream results get
  refine ⟨hbase, ?_, ?_, by decide⟩
  · rw [hbase, foldl_insertItem_map_name]
    exact nameFold_eq_dedupFirst _
  · intro hwf e he k hk
    have hnd :
        ((((results.filterMap get).flatten).foldl insertItem []).map
          (fun e => e.name)).Nodup := by
      rw [foldl_insertItem_map_name]
      exact nameFold_nodup _ _ (by simp)
    rw [hbase] at he
    have hfind :
        findByName (((results.filterMap get).flatten).foldl insertItem []) e.name =
          some e :=
      findByName_eq_self _ e hnd he
    have hval :=
      foldl_insertItem_entryVal k hk ((results.filterMap get).flatten) [] e.name hwf
    rw [hfind] at hval
    simpa [entryVal, findByName] using hval

/-- Concrete instantiation of the aggregation theorem C3: the merged
"Adult Fiction" entry's value field is the total of the stream's
"Adult Fiction" values. -/
theorem mergeResults_category_aggregation_witness :
    getNum ((⟨"Adult Fiction", [("value", 15)]⟩ : CatEntry).fields) "value" =
      sumContrib
        (([{ collectionData := some [⟨"Adult Fiction", [("value", 10)]⟩] },
           { collectionData := some [⟨"Adult Fiction", [("value", 5)]⟩] }
           ].filterMap (fun (r : PartialRecord) => r.collectionData)).flatten)
        "Adult Fiction" "value" :=
  (mergeResults_category_aggregation _ (List.Mem.head _) _).2.2.1 (by decide) _
    (by decide) _ (by decide)

/-- The record a chunk attempt pushes on success, as an option. -/
def okOption (o : Except String PartialRecord) : Option PartialRecord :=
  match o with
  | .ok r => some r
  | .error _ => none

/-- A chunk attempt seen as always contributing a record: the empty
partial record on failure. -/
def okOrEmpty (o : Except String PartialRecord) : PartialRecord :=
  match o with
  | .ok r => r
  | .error _ => emptyRecord

/-- Translation of `processLargePdfWithClaudeAI` (src/lib/reportProcessing.ts,
lines 301-450) with the effectful per-chunk oracle call (`callClaudeAPI`
with the chunk's prompt) abstracted as a function from the chunk index to
either a parsed partial record or an error.  The per-chunk `try/catch`
pushes the result only on success and logs and skips the chunk otherwise;
the final merge is returned.  The surrounding `try/catch` re-throws, so
the error channel of the return type is never used by the loop itself. -/
def processLargePdfWithClaudeAI (pdfText : Text)
    (oracle : Nat → Except String PartialRecord) : Except String PartialRecord :=
  let chunks := splitTextIntoChunks pdfText 50000
  let results :=
    (List.range chunks.length).foldl
      (fun acc i =>
        match oracle i with
        | .ok r => acc ++ [r]
        | .error _ => acc)
      []
  .ok (mergeResults results)

theorem foldl_push_eq_filterMap (oracle : Nat → Except String PartialRecord)
    (l : List Nat) :
    ∀ acc : List PartialRecord,
      l.foldl
        (fun acc i =>
          match oracle i with
          | .ok r => acc ++ [r]
          | .error _ => acc)
        acc = acc ++ l.filterMap (fun i => okOption (oracle i)) := by
  induction l with
  | nil => intro acc; simp
  | cons i l ih =>
    intro acc
    simp only [List.foldl_cons, List.filterMap_cons]
    cases h : oracle i with
    | ok r => simp [okOption, ih]
    | error e => simp [okOption, ih]

theorem foldl_filterMap_eq_map {β : Type} (step : β → PartialRecord → β)
    (hstep : ∀ b, step b emptyRecord = b)
    (oracle : Nat → Except String PartialRecord) (l : List Nat) :
    ∀ init : β,
      (l.filterMap (fun i => okOption (oracle i))).foldl step init =
        (l.map (fun i => okOrEmpty (oracle i))).foldl step init := by
  induction l with
  | nil => intro init; rfl
  | cons i l ih =>
    intro init
    simp only [List.filterMap_cons, List.map_cons]
    cases h : oracle i with
    | ok r =>
      exact ih (step init r)
    | error e =>
      show (List.filterMap (fun i => okOption (oracle i)) l).foldl step init =
        (List.map (fun i => okOrEmpty (oracle i)) l).foldl step (step init emptyRecord)
      rw [hstep]
      exact ih init

theorem any_filterMap_eq_map (p : PartialRecord → Bool)
    (hp : p emptyRecord = false)
    (oracle : Nat → Except String PartialRecord) (l : List Nat) :
    (l.filterMap (fun i => okOption (oracle i))).any p =
      (l.map (fun i => okOrEmpty (oracle i))).any p := by
  induction l with
  | nil => rfl
  | cons i l ih =>
    simp only [List.filterMap_cons, List.map_cons]
    cases h : oracle i with
    | ok r =>
      show (p r || (List.filterMap (fun i => okOption (oracle i)) l).any p) =
        (p r || (List.map (fun i => okOrEmpty (oracle i)) l).any p)
      rw [ih]
    | error e =>
      show ((List.filterMap (fun i => okOption (oracle i)) l).any p) =
        (p emptyRecord || (List.map (fun i => okOrEmpty (oracle i)) l).any p)
      rw [hp, Bool.false_or, ih]

theorem mergeSection_filterMap_eq_map (oracle : Nat → Except String PartialRecord)
    (l : List Nat) (get : PartialRecord → Option (List CatEntry))
    (hget : get emptyRecord = none) :
    mergeSection (l.filterMap (fun i => okOption (oracle i))) get =
      mergeSection (l.map (fun i => okOrEmpty (oracle i))) get := by
  apply foldl_filterMap_eq_map
  intro b
  simp [hget]

theorem mergeResults_filterMap_eq_map (oracle : Nat → Except String PartialRecord)
    (l : List Nat) :
    mergeResults (l.filterMap (fun i => okOption (oracle i))) =
      mergeResults (l.map (fun i => okOrEmpty (oracle i))) := by
  have hsec : ∀ get : PartialRecord → Option (List CatEntry), get emptyRecord = none →
      mergeSectionOpt (l.filterMap (fun i => okOption (oracle i))) get =
        mergeSectionOpt (l.map (fun i => okOrEmpty (oracle i))) get := by
    intro get hget
    simp only [mergeSectionOpt, mergeSection_filterMap_eq_map oracle l get hget]
  have hscal : ∀ {α : Type} (get : PartialRecord → Option α), get emptyRecord = none →
      scalarFold get (l.filterMap (fun i => okOption (oracle i))) none =
        scalarFold get (l.map (fun i => okOrEmpty (oracle i))) none := by
    intro α get hget
    apply foldl_filterMap_eq_map
    intro b
    simp [hget]
  have hfind : ∀ get : KeyFindings → List String,
      collectFindings (l.filterMap (fun i => okOption (oracle i))) get =
        collectFindings (l.map (fun i => okOrEmpty (oracle i))) get := by
    intro get
    apply foldl_filterMap_eq_map
    intro b
    rfl
  have hany :
      (l.filterMap (fun i => okOption (oracle i))).any (fun r => r.keyFindings.isSome) =
        (l.map (fun i => okOrEmpty (oracle i))).any (fun r => r.keyFindings.isSome) := by
    apply any_filterMap_eq_map
    rfl
  have hlib : ∀ rs : List PartialRecord, (mergeResults rs).libraryOverview =
      scalarFold (fun r => r.libraryOverview) rs none := by
    intro rs
    rw [show (mergeResults rs).libraryOverview =
      (rs.foldl scalarStep {}).libraryOverview from rfl, foldl_scalarStep_lib]
  have hcoll : ∀ rs : List PartialRecord, (mergeResults rs).collectionOverview =
      scalarFold (fun r => r.collectionOverview) rs none := by
    intro rs
    rw [show (mergeResults rs).collectionOverview =
      (rs.foldl scalarStep {}).collectionOverview from rfl, foldl_scalarStep_coll]
  have husage : ∀ rs : List PartialRecord, (mergeResults rs).usageStatistics =
      scalarFold (fun r => r.usageStatistics) rs none := by
    intro rs
    rw [show (mergeResults rs).usageStatistics =
      (rs.foldl scalarStep {}).usageStatistics from rfl, foldl_scalarStep_usage]
  ext1
  case libraryOverview =>
    rw [hlib, hlib]
    exact hscal (fun r => r.libraryOverview) rfl
  case collectionOverview =>
    rw [hcoll, hcoll]
    exact hscal (fun r => r.collectionOverview) rfl
  case usageStatistics =>
    rw [husage, husage]
    exact hscal (fun r => r.usageStatistics) rfl
  case collectionData =>
    exact hsec (fun r => r.collectionData) rfl
  case circulationData =>
    exact hsec (fun r => r.circulationData) rfl
  case revenueData =>
    exact hsec (fun r => r.revenueData) rfl
  case expenseData =>
    exact hsec (fun r => r.expenseData) rfl
  case programData =>
    exact hsec (fun r => r.programData) rfl
  case venueData =>
    exact hsec (fun r => r.venueData) rfl
  case summerReadingData =>
    exact hsec (fun r => r.summerReadingData) rfl
  case keyFindings =>
    show (if _ then _ else _) = (if _ then _ else _)
    rw [hany, hfind, hfind]

/-- C6: with respect to oracle errors the chunk-processing stage never
fails: whatever subset of the per-chunk oracle calls errors (network
error, oracle error, unparseable response — all surfacing as the call's
error value), `processLargePdfWithClaudeAI` returns successfully the merge
in which every failed chunk contributes the empty partial record and every
successful chunk its parsed record; a chunk's failure is caught and never
interrupts the remaining chunks, and no oracle error reaches the
function's own error channel. -/
theorem processLargePdf_isolates_chunk_failures (pdfText : Text)
    (oracle : Nat → Except String PartialRecord) :
    processLargePdfWithClaudeAI pdfText oracle =
      .ok
        (mergeResults
          ((List.range (splitTextIntoChunks pdfText 50000).length).map
            (fun i => okOrEmpty (oracle i)))) := by
  simp only [processLargePdfWithClaudeAI]
  rw [foldl_push_eq_filterMap oracle _ []]
  simp only [List.nil_append]
  rw [mergeResults_filterMap_eq_map oracle _]

/-- Status values written to the external report record. -/
inductive RunStatus
  | processing
  | completed
  | failed
deriving DecidableEq

/-- One status write to the `reports` document: the status it sets and the
error-message field it carries, if any (`updatedAt` is elided). -/
structure StatusWrite where
  status : RunStatus
  errorMessage : Option String
deriving DecidableEq

/-- The fields `processReportWithAI` reads from the report document. -/
structure ReportDocData where
  pdfPath : String
  libraryId : String
  year : Int
deriving DecidableEq

/-- The field read from the library document (`name || 'Unknown Library'`). -/
structure LibraryDocData where
  name : Option String
deriving DecidableEq

/-- The outcomes of the external operations one run of
`processReportWithAI` performs, in program order: the `Processing` status
write, the report `getDoc` (which can fail, or find no document), the
library `getDoc`, the PDF download-and-extraction, the per-chunk oracle
calls, the `setDoc` of the final data, the `Completed` status write, and
the `Failed` status write used by the catch block. -/
structure World where
  updateProcessing : Except String Unit
  reportDoc : Except String (Option ReportDocData)
  libraryDoc : Except String (Option LibraryDocData)
  extractText : Except String Text
  oracle : Nat → Except String PartialRecord
  persistResult : Except String Unit
  updateCompleted : Except String Unit
  updateFailed : Except String Unit

/-- The catch block of `processReportWithAI`: a best-effort write of
status `Failed` — carrying no error-message field — that is itself
allowed to fail (logged and swallowed); the function then returns
`false`. -/
def catchBlock (w : World) (ws : List StatusWrite) : Bool × List StatusWrite :=
  match w.updateFailed with
  | .ok _ => (false, ws ++ [{ status := .failed, errorMessage := none }])
  | .error _ => (false, ws)

/-- Translation of `processReportWithAI` (src/lib/reportProcessing.ts,
lines 66-145) over a `World` of external outcomes: the Boolean result and
the list of status writes that reached the report record, in order.  A
missing report or library document raises (`throw new Error(...)`), as
does a failing stage; every raise lands in the catch block. -/
def processReportWithAI (w : World) : Bool × List StatusWrite :=
  match w.updateProcessing with
  | .error _ => catchBlock w []
  | .ok _ =>
    let ws := [{ status := RunStatus.processing, errorMessage := none }]
    match w.reportDoc with
    | .error _ => catchBlock w ws
    | .ok none => catchBlock w ws
    | .ok (some _) =>
      match w.libraryDoc with
      | .error _ => catchBlock w ws
      | .ok none => catchBlock w ws
      | .ok (some _) =>
        match w.extractText with
        | .error _ => catchBlock w ws
        | .ok pdfText =>
          match processLargePdfWithClaudeAI pdfText w.oracle with
          | .error _ => catchBlock w ws
          | .ok _ =>
            match w.persistResult with
            | .error _ => catchBlock w ws
            | .ok _ =>
              match w.updateCompleted with
              | .error _ => catchBlock w ws
              | .ok _ =>
                (true, ws ++ [{ status := RunStatus.completed, errorMessage := none }])

/-- Some stage of the run raises a fatal exception: the initial status
write, the report lookup (error or missing), the library lookup (error or
missing), the download/extraction, the persistence write, or the final
status write. -/
def someStageFails (w : World) : Bool :=
  (match w.updateProcessing with | .ok _ => false | .error _ => true) ||
  (match w.reportDoc with | .ok (some _) => false | _ => true) ||
  (match w.libraryDoc with | .ok (some _) => false | _ => true) ||
  (match w.extractText with | .ok _ => false | .error _ => true) ||
  (match w.persistResult with | .ok _ => false | .error _ => true) ||
  (match w.updateCompleted with | .ok _ => false | .error _ => true)

theorem catchBlock_spec (w : World) (ws : List StatusWrite)
    (hws : ∀ sw ∈ ws, sw.errorMessage = none) :
    (catchBlock w ws).1 = false ∧
    (∀ sw ∈ (catchBlock w ws).2, sw.errorMessage = none) ∧
    (w.updateFailed.isOk = true →
      (catchBlock w ws).2.getLast? =
        some { status := .failed, errorMessage := none }) := by
  simp only [catchBlock]
  cases hf : w.updateFailed with
  | error e =>
    refine ⟨rfl, hws, ?_⟩
    intro hok
    simp [Except.isOk, Except.toBool] at hok
  | ok u =>
    refine ⟨rfl, ?_, ?_⟩
    · intro sw hsw
      rcases List.mem_append.mp hsw with h1 | h1
      · exact hws sw h1
      · simp only [List.mem_singleton] at h1
        rw [h1]
    · intro _
      simp

/-- The world in which the report document does not exist and every
external write succeeds. -/
def worldReportMissing : World :=
  { updateProcessing := .ok ()
    reportDoc := .ok none
    libraryDoc := .ok (some { name := some "Library" })
    extractText := .ok []
    oracle := fun _ => .ok {}
    persistResult := .ok ()
    updateCompleted := .ok ()
    updateFailed := .ok () }

/-- The world in which the PDF download/extraction raises and the `Failed`
status write itself also fails. -/
def worldExtractFails : World :=
  { updateProcessing := .ok ()
    reportDoc := .ok (some { pdfPath := "p", libraryId := "l", year := 2023 })
    libraryDoc := .ok (some { name := some "Library" })
    extractText := .error "fetch failed"
    oracle := fun _ => .ok {}
    persistResult := .ok ()
    updateCompleted := .ok ()
    updateFailed := .error "write failed" }

/-- C7 (counterexample): on a fatal failure (the report document is
missing) the run returns `false` and writes status `Failed` back — but
with no captured error message: no write of the whole run carries an
error-message field.  Only the console log receives the error. -/
theorem processReport_no_error_message :
    (processReportWithAI worldReportMissing).1 = false ∧
    (processReportWithAI worldReportMissing).2 =
      [{ status := .processing, errorMessage := none },
       { status := .failed, errorMessage := none }] ∧
    ∀ sw ∈ (processReportWithAI worldReportMissing).2, sw.errorMessage = none := by
  refine ⟨by decide, by decide, by decide⟩

/-- C7 (amended): whenever any stage (initial status write, document
lookup, library-metadata lookup, fetch/extraction, persistence, final
status write) raises a fatal exception, `processReportWithAI` returns
`false` to its caller and attempts a `Failed` status write carrying no
error message (recorded as the last write when that write succeeds); no
write of the run carries an error message, and the exception is never
propagated — by construction the function only ever returns a Boolean,
even when the `Failed` write itself fails. -/
theorem processReport_failure_contract (w : World)
    (h : someStageFails w = true) :
    (processReportWithAI w).1 = false ∧
    (∀ sw ∈ (processReportWithAI w).2, sw.errorMessage = none) ∧
    (w.updateFailed.isOk = true →
      (processReportWithAI w).2.getLast? =
        some { status := .failed, errorMessage := none }) := by
  simp only [processReportWithAI]
  cases hupd : w.updateProcessing with
  | error e => exact catchBlock_spec w [] (by simp)
  | ok u =>
    cases hrep : w.reportDoc with
    | error e => exact catchBlock_spec w _ (by simp)
    | ok orep =>
      cases orep with
      | none => exact catchBlock_spec w _ (by simp)
      | some rd =>
        cases hlib : w.libraryDoc with
        | error e => exact catchBlock_spec w _ (by simp)
        | ok olib =>
          cases olib with
          | none => exact catchBlock_spec w _ (by simp)
          | some ld =>
            cases hext : w.extractText with
            | error e => exact catchBlock_spec w _ (by simp)
            | ok text =>
              simp only [processLargePdfWithClaudeAI]
              cases hper : w.persistResult with
              | error e => exact catchBlock_spec w _ (by simp)
              | ok u2 =>
                cases hcom : w.updateCompleted with
                | error e => exact catchBlock_spec w _ (by simp)
                | ok u3 =>
                  exfalso
                  simp [someStageFails, hupd, hrep, hlib, hext, hper, hcom] at h

/-- Concrete instantiation of the amended failure-contract theorem C7, in
a world where the extraction raises and even the `Failed` status write
fails: the run still just returns `false`. -/
theorem processReport_failure_contract_witness :
    (processReportWithAI worldExtractFails).1 = false :=
  (processReport_failure_contract worldExtractFails (by decide)).1

/-- Heap read: the entry object at an address of the store. -/
def derefEntry (store : List CatEntry) (a : Nat) : CatEntry :=
  store.getD a { name := "", fields := [] }

/-- Heap-based model of the item loop of `mergeResults`, making JavaScript
object identity explicit: entry objects live in a store, the input lists
hold addresses into it, `items` holds the addresses of the output entries.
On a seen name (the source's `nameMap` lookup, names of output entries
never change) the aggregation `existingItem[key] = ...` mutates the store
in place at the output entry's address; on a new name `items.push({...item})`
allocates a fresh copy of the input object at a fresh address. -/
def insertItemH (store : List CatEntry) (items : List Nat) (a : Nat) :
    List CatEntry × List Nat :=
  let item := derefEntry store a
  match items.findIdx? (fun b => (derefEntry store b).name = item.name) with
  | some idx =>
    let b := items.getD idx 0
    (store.set b (mergeNumeric (derefEntry store b) item), items)
  | none => (store ++ [item], items ++ [store.length])

/-- Heap-based model of one category section's merge over the per-chunk
lists of entry addresses. -/
def mergeSectionH (store : List CatEntry) (lists : List (List Nat)) :
    List CatEntry × List Nat :=
  lists.foldl
    (fun st l => l.foldl (fun st a => insertItemH st.1 st.2 a) st)
    (store, [])

theorem insertItemH_inv (store0 : List CatEntry) (st : List CatEntry × List Nat)
    (a : Nat)
    (h1 : store0.length ≤ st.1.length)
    (h2 : ∀ i, i < store0.length → st.1[i]? = store0[i]?)
    (h3 : ∀ b ∈ st.2, store0.length ≤ b ∧ b < st.1.length) :
    store0.length ≤ (insertItemH st.1 st.2 a).1.length ∧
    (∀ i, i < store0.length → (insertItemH st.1 st.2 a).1[i]? = store0[i]?) ∧
    (∀ b ∈ (insertItemH st.1 st.2 a).2,
      store0.length ≤ b ∧ b < (insertItemH st.1 st.2 a).1.length) := by
  simp only [insertItemH]
  cases hidx : st.2.findIdx?
      (fun b => (derefEntry st.1 b).name = (derefEntry st.1 a).name) with
  | some idx =>
    have hlt : idx < st.2.length := (List.findIdx?_eq_some_iff_findIdx_eq.mp hidx).1
    have hbmem : st.2.getD idx 0 ∈ st.2 := by
      rw [List.getD_eq_getElem?_getD, List.getElem?_eq_getElem hlt]
      exact List.getElem_mem hlt
    obtain ⟨hble, hblt⟩ := h3 _ hbmem
    refine ⟨by simpa using h1, ?_, ?_⟩
    · intro i hi
      rw [List.getElem?_set_ne (by omega)]
      exact h2 i hi
    · intro b hb
      have := h3 b hb
      simpa using this
  | none =>
    refine ⟨by simp; omega, ?_, ?_⟩
    · intro i hi
      rw [List.getElem?_append]
      rw [if_pos (by omega)]
      exact h2 i hi
    · intro b hb
      rcases List.mem_append.mp hb with hb1 | hb1
      · have := h3 b hb1
        simp only [List.length_append, List.length_cons, List.length_nil]
        omega
      · simp only [List.mem_singleton] at hb1
        subst hb1
        simp only [List.length_append, List.length_cons, List.length_nil]
        omega

theorem foldl_insertItemH_inv (store0 : List CatEntry) (l : List Nat) :
    ∀ st : List CatEntry × List Nat,
      store0.length ≤ st.1.length →
      (∀ i, i < store0.length → st.1[i]? = store0[i]?) →
      (∀ b ∈ st.2, store0.length ≤ b ∧ b < st.1.length) →
      store0.length ≤ (l.foldl (fun st a => insertItemH st.1 st.2 a) st).1.length ∧
      (∀ i, i < store0.length →
        (l.foldl (fun st a => insertItemH st.1 st.2 a) st).1[i]? = store0[i]?) ∧
      (∀ b ∈ (l.foldl (fun st a => insertItemH st.1 st.2 a) st).2,
        store0.length ≤ b ∧
          b < (l.foldl (fun st a => insertItemH st.1 st.2 a) st).1.length) := by
  induction l with
  | nil =>
    intro st h1 h2 h3
    exact ⟨h1, h2, h3⟩
  | cons a l ih =>
    intro st h1 h2 h3
    simp only [List.foldl_cons]
    obtain ⟨g1, g2, g3⟩ := insertItemH_inv store0 st a h1 h2 h3
    exact ih _ g1 g2 g3

theorem foldl2_insertItemH_inv (store0 : List CatEntry) (lists : List (List Nat)) :
    ∀ st : List CatEntry × List Nat,
      store0.length ≤ st.1.length →
      (∀ i, i < store0.length → st.1[i]? = store0[i]?) →
      (∀ b ∈ st.2, store0.length ≤ b ∧ b < st.1.length) →
      store0.length ≤
          (lists.foldl (fun st l => l.foldl (fun st a => insertItemH st.1 st.2 a) st)
            st).1.length ∧
      (∀ i, i < store0.length →
        (lists.foldl (fun st l => l.foldl (fun st a => insertItemH st.1 st.2 a) st)
          st).1[i]? = store0[i]?) ∧
      (∀ b ∈ (lists.foldl (fun st l => l.foldl (fun st a => insertItemH st.1 st.2 a) st)
          st).2,
        store0.length ≤ b ∧
          b < (lists.foldl (fun st l => l.foldl (fun st a => insertItemH st.1 st.2 a) st)
            st).1.length) := by
  induction lists with
  | nil =>
    intro st h1 h2 h3
    exact ⟨h1, h2, h3⟩
  | cons l lists ih =>
    intro st h1 h2 h3
    simp only [List.foldl_cons]
    obtain ⟨g1, g2, g3⟩ := foldl_insertItemH_inv store0 l st h1 h2 h3
    exact ih _ g1 g2 g3

/-- C10: the heap-based category merge never mutates its input objects:
every store cell that existed before the merge is unchanged afterwards
(in particular every entry object of every input list), and every output
entry is a freshly allocated cell (its address lies beyond the original
store), so the aggregation updates touch only the fresh copies held in
the output.  The scalar and findings passes of `mergeResults` only read
their inputs. -/
theorem mergeSectionH_frame (store : List CatEntry) (lists : List (List Nat)) :
    (∀ i, i < store.length → (mergeSectionH store lists).1[i]? = store[i]?) ∧
    ∀ b ∈ (mergeSectionH store lists).2, store.length ≤ b := by
  have h := foldl2_insertItemH_inv store lists (store, []) (le_refl _)
    (fun i _ => rfl) (by simp)
  exact ⟨h.2.1, fun b hb => (h.2.2 b hb).1⟩

end NCLS
